import Mathlib

/-
Verification development for the Game-of-24 brute-force calculator
(`calculateSolutions` and its helpers in the C++ source).

Modelling conventions:
* C++ `double` values are represented by `ℚ` wherever the arithmetic that
  actually occurs is exact in IEEE-754 binary64 (all concrete inputs used
  below are small integers whose sums, differences, products and exact
  quotients are representable); a separate type `EDouble` with IEEE-754
  special values (`inf`, `nan`) is used for the division-by-zero analysis.
* `std::vector` becomes `List`; `size_t` arithmetic that can wrap is made
  explicit mod 2^64.
* `std::sort` is modelled by `List.insertionSort (· ≤ ·)`: for a sequence of
  plain numeric values the observable result of `std::sort` (an ascending
  reordering) is the unique sorted arrangement of the multiset, which
  `insertionSort` computes.
* `std::next_permutation` is modelled by `nextPermutation` below, following
  the standard algorithm (find the rightmost ascent, swap the pivot with the
  rightmost larger element of the suffix, reverse the suffix).
-/

namespace Game24

open scoped List

/- Batteries marks the rational-number arithmetic `@[irreducible]`, which
blocks kernel evaluation of the concrete runs below; restore the default
reducibility locally. -/
attribute [local semireducible] Rat.add Rat.mul Rat.sub Rat.inv

/-! ## The `Operation` enumeration (enum class Operation) -/

inductive Operation : Type where
  | Addition : Operation
  | Subtraction : Operation
  | Multiplication : Operation
  | Division : Operation
deriving DecidableEq

/-- `static_cast<Operation>(digit)` for the base-4 digits 0..3 produced by
`decimalValueBuffer % Operation_Count` (a value ≥ 4 never occurs: the code's
defensive `digit > Operation_Count - 1` throw is unreachable). -/
def opOfDigit : Nat → Operation
  | 0 => Operation.Addition
  | 1 => Operation.Subtraction
  | 2 => Operation.Multiplication
  | _ => Operation.Division

/-- Ordinal of an operator, inverse of `opOfDigit` on 0..3. -/
def digitOfOp : Operation → Nat
  | Operation.Addition => 0
  | Operation.Subtraction => 1
  | Operation.Multiplication => 2
  | Operation.Division => 3

/-- `const auto NUMBER_OF_OPERATIONS_IN_EXPRESSION(input.size() - 1);`
`input.size()` is `size_t`, so the subtraction wraps modulo 2^64:
for `n = 0` the result is `2^64 - 1`, not `0`. -/
def NUMBER_OF_OPERATIONS_IN_EXPRESSION (n : Nat) : Nat :=
  (n + (2 ^ 64 - 1)) % 2 ^ 64

/-- The inner digit-writing loop of step 1 of `calculateSolutions`:
`for (j = 0; decimalValueBuffer != 0; ++j) { perm[j] = Operation(buf % 4); buf /= 4; }`.
Positions not written keep the vector's value-initialized contents. -/
def writeDigits (buf j : Nat) (perm : List Operation) : List Operation :=
  if h : buf = 0 then perm
  else writeDigits (buf / 4) (j + 1) (perm.set j (opOfDigit (buf % 4)))
termination_by buf
decreasing_by exact Nat.div_lt_self (Nat.pos_of_ne_zero h) (by norm_num)

/-- Step 1 of `calculateSolutions`: the list of all operator assignments.
`current_operations_permutation(k)` value-initializes a vector of `k`
entries of ordinal 0, i.e. `Addition`; entry `i` of the outer loop then
writes the base-4 digits of `i`. `s = (size_t)std::pow(4, k)` is `4 ^ k`
(exact for every `k` for which the loop is feasible). -/
def operation_permutations (k : Nat) : List (List Operation) :=
  (List.range (4 ^ k)).map fun i => writeDigits i 0 (List.replicate k Operation.Addition)

/-- The base-4 digit expansion (least-significant first) of `i`, padded to
width `k`, with each digit mapped to its operator. -/
def digitsList (i k : Nat) : List Operation :=
  (List.range k).map fun j => opOfDigit (i / 4 ^ j % 4)

/-- Numeric encoding of an operator list, least-significant digit first. -/
def encodeOps : List Operation → Nat
  | [] => 0
  | o :: t => digitOfOp o + 4 * encodeOps t

theorem opOfDigit_digitOfOp (o : Operation) : opOfDigit (digitOfOp o) = o := by
  cases o <;> rfl

theorem digitOfOp_lt_four (o : Operation) : digitOfOp o < 4 := by
  cases o <;> simp [digitOfOp]

theorem digitsList_length (i k : Nat) : (digitsList i k).length = k := by
  simp [digitsList]

theorem writeDigits_zero (j : Nat) (perm : List Operation) :
    writeDigits 0 j perm = perm := by
  rw [writeDigits]
  simp

theorem writeDigits_pos (buf j : Nat) (h : buf ≠ 0) (perm : List Operation) :
    writeDigits buf j perm
      = writeDigits (buf / 4) (j + 1) (perm.set j (opOfDigit (buf % 4))) := by
  rw [writeDigits]
  simp [h]

theorem range_map_const_eq_replicate (t : Nat) (o : Operation) :
    (List.range t).map (fun _ => o) = List.replicate t o := by
  induction t with
  | zero => simp
  | succ n ih => simp [List.range_succ, ih, List.replicate_succ']

theorem digitsList_succ (m k : Nat) :
    digitsList m (k + 1) = opOfDigit (m % 4) :: digitsList (m / 4) k := by
  unfold digitsList
  rw [List.range_succ_eq_map]
  simp only [List.map_cons, List.map_map, Function.comp]
  congr 1
  · norm_num
  · apply List.map_congr_left
    intro a _
    have h : m / 4 / 4 ^ a = m / 4 ^ (a + 1) := by
      rw [Nat.div_div_eq_div_mul, ← Nat.pow_succ']
    simp [h]

theorem digitsList_zero (k : Nat) :
    digitsList 0 k = List.replicate k Operation.Addition := by
  unfold digitsList
  have : ∀ j : Nat, opOfDigit (0 / 4 ^ j % 4) = Operation.Addition := by
    intro j; simp [opOfDigit]
  calc (List.range k).map (fun j => opOfDigit (0 / 4 ^ j % 4))
      = (List.range k).map (fun _ => Operation.Addition) := by
        apply List.map_congr_left; intro a _; exact this a
    _ = List.replicate k Operation.Addition := range_map_const_eq_replicate k _

theorem writeDigits_spec : ∀ (t buf : Nat) (X : List Operation), buf < 4 ^ t →
    writeDigits buf X.length (X ++ List.replicate t Operation.Addition)
      = X ++ digitsList buf t := by
  intro t
  induction t with
  | zero =>
    intro buf X hb
    have : buf = 0 := Nat.lt_one_iff.mp (by simpa using hb)
    subst this
    simp [writeDigits_zero, digitsList]
  | succ t ih =>
    intro buf X hb
    by_cases h0 : buf = 0
    · subst h0
      rw [writeDigits_zero, digitsList_zero]
    · rw [writeDigits_pos _ _ h0]
      have hset : (X ++ List.replicate (t + 1) Operation.Addition).set X.length
            (opOfDigit (buf % 4))
          = (X ++ [opOfDigit (buf % 4)]) ++ List.replicate t Operation.Addition := by
        rw [List.replicate_succ]
        rw [List.set_append_right _ _ (le_refl X.length)]
        simp
      rw [hset]
      have hlen : X.length + 1 = (X ++ [opOfDigit (buf % 4)]).length := by simp
      rw [hlen]
      have hdiv : buf / 4 < 4 ^ t := by
        rw [Nat.div_lt_iff_lt_mul (by norm_num)]
        calc buf < 4 ^ (t + 1) := hb
          _ = 4 ^ t * 4 := by ring
      rw [ih (buf / 4) (X ++ [opOfDigit (buf % 4)]) hdiv]
      rw [digitsList_succ]
      simp

theorem operation_permutations_eq (k : Nat) :
    operation_permutations k = (List.range (4 ^ k)).map fun i => digitsList i k := by
  unfold operation_permutations
  apply List.map_congr_left
  intro i hi
  have hb : i < 4 ^ k := List.mem_range.mp hi
  have := writeDigits_spec k i [] hb
  simpa using this

theorem digitsList_inj {k i i' : Nat} (hi : i < 4 ^ k) (hi' : i' < 4 ^ k)
    (h : digitsList i k = digitsList i' k) : i = i' := by
  induction k generalizing i i' with
  | zero =>
    have h1 : i = 0 := Nat.lt_one_iff.mp (by simpa using hi)
    have h2 : i' = 0 := Nat.lt_one_iff.mp (by simpa using hi')
    rw [h1, h2]
  | succ k ih =>
    rw [digitsList_succ i, digitsList_succ i'] at h
    have hhead : opOfDigit (i % 4) = opOfDigit (i' % 4) := by
      exact List.head_eq_of_cons_eq h
    have htail : digitsList (i / 4) k = digitsList (i' / 4) k := by
      exact List.tail_eq_of_cons_eq h
    have hmod : i % 4 = i' % 4 := by
      have h4 : i % 4 < 4 := Nat.mod_lt _ (by norm_num)
      have h4' : i' % 4 < 4 := Nat.mod_lt _ (by norm_num)
      interval_cases h1 : i % 4 <;> interval_cases h2 : i' % 4 <;>
        simp_all [opOfDigit]
    have hdivlt : i / 4 < 4 ^ k := by
      rw [Nat.div_lt_iff_lt_mul (by norm_num)]
      calc i < 4 ^ (k + 1) := hi
        _ = 4 ^ k * 4 := by ring
    have hdivlt' : i' / 4 < 4 ^ k := by
      rw [Nat.div_lt_iff_lt_mul (by norm_num)]
      calc i' < 4 ^ (k + 1) := hi'
        _ = 4 ^ k * 4 := by ring
    have hdiv : i / 4 = i' / 4 := ih hdivlt hdivlt' htail
    omega

theorem encodeOps_lt (ops : List Operation) : encodeOps ops < 4 ^ ops.length := by
  induction ops with
  | nil => simp [encodeOps]
  | cons o t ih =>
    simp only [encodeOps, List.length_cons]
    have h1 : digitOfOp o < 4 := digitOfOp_lt_four o
    have h2 : 4 * encodeOps t ≤ 4 * (4 ^ t.length - 1) := by
      apply Nat.mul_le_mul_left
      omega
    have h3 : (4 : Nat) ^ (t.length + 1) = 4 * 4 ^ t.length := by
      rw [Nat.pow_succ, Nat.mul_comm]
    have hp : 1 ≤ (4 : Nat) ^ t.length := Nat.one_le_pow _ _ (by norm_num)
    omega

theorem digitsList_encodeOps (ops : List Operation) :
    digitsList (encodeOps ops) ops.length = ops := by
  induction ops with
  | nil => simp [digitsList]
  | cons o t ih =>
    simp only [List.length_cons]
    rw [digitsList_succ]
    have hmod : encodeOps (o :: t) % 4 = digitOfOp o := by
      simp only [encodeOps]
      rw [Nat.add_mul_mod_self_left]
      exact Nat.mod_eq_of_lt (digitOfOp_lt_four o)
    have hdiv : encodeOps (o :: t) / 4 = encodeOps t := by
      simp only [encodeOps]
      rw [Nat.add_mul_div_left _ _ (by norm_num)]
      rw [Nat.div_eq_of_lt (digitOfOp_lt_four o)]
      simp
    rw [hmod, hdiv, opOfDigit_digitOfOp, ih]

/-! ## `std::next_permutation` and the sort-then-advance enumeration pattern

Both the input-permutation driver (step 3 of `calculateSolutions`) and the
grouping-order generator (step 2) use the same C++ pattern:
`std::sort(v); do { visit(v); } while (std::next_permutation(v));`. -/

theorem dropWhile_head_not {β : Type} {P : β → Bool} : ∀ (u : List β) (q : β) (gs : List β),
    u.dropWhile P = q :: gs → P q = false
  | [], q, gs => by simp
  | a :: t, q, gs => by
    by_cases h : P a
    · rw [List.dropWhile_cons_of_pos h]
      exact dropWhile_head_not t q gs
    · rw [List.dropWhile_cons_of_neg h]
      intro he
      have haq : a = q := (List.cons_eq_cons.mp he).1
      rw [← haq]
      simpa using h

theorem dropWhile_ne_nil_of_exists {β : Type} {P : β → Bool} {u : List β}
    (h : ∃ x ∈ u, P x = false) : u.dropWhile P ≠ [] := by
  intro hnil
  obtain ⟨x, hx, hPx⟩ := h
  have hall : ∀ y ∈ u, P y = true := by
    have htw : u.takeWhile P = u := by
      have hsplit := List.takeWhile_append_dropWhile (p := P) (l := u)
      rw [hnil, List.append_nil] at hsplit
      exact hsplit
    intro y hy
    exact List.mem_takeWhile_imp (htw ▸ hy)
  rw [hall x hx] at hPx
  cases hPx

section NextPermutation

variable {β : Type} [LinearOrder β]

/-- Maximal weakly non-decreasing prefix of a list together with the rest.
Applied to `l.reverse` this finds the maximal weakly non-increasing suffix of
`l`, which is exactly the suffix that `std::next_permutation` scans. -/
def splitNondec : List β → List β × List β
  | [] => ([], [])
  | [a] => ([a], [])
  | a :: b :: t =>
    if a ≤ b then ((a :: (splitNondec (b :: t)).1), (splitNondec (b :: t)).2)
    else ([a], b :: t)

/-- Model of `std::next_permutation(v.begin(), v.end())`: returns the new
contents of the vector and the `bool` result. The standard algorithm: if the
whole sequence is weakly non-increasing, reverse it (yielding the sorted
sequence) and report `false`; otherwise let `p` be the element before the
maximal non-increasing suffix, swap it with the rightmost suffix element
greater than `p`, reverse the suffix, and report `true`. Working on
`l.reverse` turns the suffix into a non-decreasing prefix `u`; `le`/`q :: gs`
split `u` at the first element greater than `p` (`q` is the swap partner and
`le ++ p :: gs` is the already-reversed new suffix). -/
def nextPermAux (u v l : List β) : List β × Bool :=
  match v with
  | [] => (u, false)
  | p :: rest =>
    match u.dropWhile (fun x => decide (x ≤ p)) with
    | q :: gs => (rest.reverse ++ q :: (u.takeWhile (fun x => decide (x ≤ p)) ++ p :: gs), true)
    | [] => (l, true)

def nextPermutation (l : List β) : List β × Bool :=
  nextPermAux (splitNondec l.reverse).1 (splitNondec l.reverse).2 l

theorem splitNondec_append : ∀ r : List β, (splitNondec r).1 ++ (splitNondec r).2 = r
  | [] => rfl
  | [a] => rfl
  | a :: b :: t => by
    by_cases h : a ≤ b <;> simp [splitNondec, h, splitNondec_append (b :: t)]

theorem splitNondec_fst_head : ∀ (b : β) (t : List β),
    ∃ u', (splitNondec (b :: t)).1 = b :: u'
  | b, [] => ⟨[], rfl⟩
  | b, c :: t => by
    by_cases h : b ≤ c <;> simp [splitNondec, h]

theorem splitNondec_fst_sorted : ∀ r : List β, (splitNondec r).1.Sorted (· ≤ ·)
  | [] => List.sorted_nil
  | [a] => List.sorted_singleton a
  | a :: b :: t => by
    by_cases h : a ≤ b
    · simp only [splitNondec, if_pos h]
      obtain ⟨u', hu'⟩ := splitNondec_fst_head b t
      have hs := splitNondec_fst_sorted (b :: t)
      rw [List.sorted_cons]
      refine ⟨?_, hs⟩
      intro x hx
      rw [hu'] at hx hs
      rcases List.mem_cons.mp hx with rfl | hx
      · exact h
      · exact le_trans h ((List.sorted_cons.mp hs).1 x hx)
    · simp only [splitNondec, if_neg h]
      exact List.sorted_singleton a

theorem splitNondec_snd_cases : ∀ (r : List β) (p : β) (v : List β),
    (splitNondec r).2 = p :: v → ∃ u' c, (splitNondec r).1 = u' ++ [c] ∧ p < c
  | [], p, v => by simp [splitNondec]
  | [a], p, v => by simp [splitNondec]
  | a :: b :: t, p, v => by
    by_cases h : a ≤ b
    · simp only [splitNondec, if_pos h]
      intro hv
      obtain ⟨u', c, hu, hc⟩ := splitNondec_snd_cases (b :: t) p v hv
      exact ⟨a :: u', c, by simp [hu], hc⟩
    · simp only [splitNondec, if_neg h]
      intro hv
      refine ⟨[], a, by simp, ?_⟩
      have hpb : p = b := (List.cons_eq_cons.mp hv).1.symm
      rw [hpb]
      exact lt_of_not_ge h

/-- A weakly increasing list is lexicographically minimal among the
arrangements of its multiset. -/
theorem sorted_min_lex : ∀ {e m : List β}, e.Sorted (· ≤ ·) → m ~ e →
    ¬ List.Lex (· < ·) m e := by
  intro e
  induction e with
  | nil =>
    intro m _ hm
    rw [List.Perm.eq_nil hm]
    exact List.Lex.not_nil_right _ _
  | cons a e' ih =>
    intro m hs hm hlex
    cases m with
    | nil => cases List.Perm.eq_nil hm.symm
    | cons b m' =>
      cases hlex with
      | rel hba =>
        have hbmem : b ∈ a :: e' := hm.subset (List.mem_cons_self b m')
        have hab : a ≤ b := by
          rcases List.mem_cons.mp hbmem with rfl | hb
          · exact le_refl b
          · exact (List.sorted_cons.mp hs).1 b hb
        exact absurd hba (not_lt_of_ge hab)
      | cons h' =>
        exact ih (List.sorted_cons.mp hs).2 (List.Perm.cons_inv hm) h'

/-- A weakly decreasing list is lexicographically maximal among the
arrangements of its multiset. -/
theorem sorted_max_lex : ∀ {d m : List β}, d.Sorted (fun x y => y ≤ x) → m ~ d →
    ¬ List.Lex (· < ·) d m := by
  intro d
  induction d with
  | nil =>
    intro m _ hm
    rw [List.Perm.eq_nil hm]
    exact List.Lex.not_nil_right _ _
  | cons a d' ih =>
    intro m hs hm hlex
    cases m with
    | nil => exact List.Lex.not_nil_right _ _ hlex
    | cons b m' =>
      cases hlex with
      | rel hab =>
        have hbmem : b ∈ a :: d' := hm.subset (List.mem_cons_self b m')
        have hba : b ≤ a := by
          rcases List.mem_cons.mp hbmem with rfl | hb
          · exact le_refl b
          · exact (List.sorted_cons.mp hs).1 b hb
        exact absurd hab (not_lt_of_ge hba)
      | cons h' =>
        exact ih (List.sorted_cons.mp hs).2 (List.Perm.cons_inv hm) h'

theorem lex_trichotomy (l₁ l₂ : List β) :
    List.Lex (· < ·) l₁ l₂ ∨ l₁ = l₂ ∨ List.Lex (· < ·) l₂ l₁ :=
  trichotomous_of (List.Lex (· < ·)) l₁ l₂

theorem lex_irrefl (l : List β) : ¬ List.Lex (· < ·) l l :=
  irrefl_of (List.Lex (· < ·)) l

theorem lex_trans {l₁ l₂ l₃ : List β} (h₁ : List.Lex (· < ·) l₁ l₂)
    (h₂ : List.Lex (· < ·) l₂ l₃) : List.Lex (· < ·) l₁ l₃ :=
  trans_of (List.Lex (· < ·)) h₁ h₂

/-- The reassembled suffix `le ++ p :: gs` is weakly increasing. -/
theorem newSuffix_sorted {le gs : List β} {p q : β}
    (hle : ∀ x ∈ le, x ≤ p) (hpq : p < q)
    (hu : (le ++ q :: gs).Sorted (· ≤ ·)) : (le ++ p :: gs).Sorted (· ≤ ·) := by
  rw [List.Sorted, List.pairwise_append] at hu ⊢
  obtain ⟨hles, hqgs, _⟩ := hu
  rw [List.pairwise_cons] at hqgs ⊢
  refine ⟨hles, ⟨?_, hqgs.2⟩, ?_⟩
  · intro b hb
    exact le_trans hpq.le (hqgs.1 b hb)
  · intro a ha b hb
    rcases List.mem_cons.mp hb with rfl | hbgs
    · exact hle a ha
    · exact le_trans (hle a ha) (le_trans hpq.le (hqgs.1 b hbgs))

/-- `q` is the least element of the scanned suffix that exceeds the pivot. -/
theorem swapTarget_min {le gs : List β} {p q : β}
    (hle : ∀ x ∈ le, x ≤ p)
    (hu : (le ++ q :: gs).Sorted (· ≤ ·)) :
    ∀ x ∈ le ++ q :: gs, p < x → q ≤ x := by
  intro x hx hpx
  rcases List.mem_append.mp hx with hxle | hxq
  · exact absurd hpx (not_lt_of_ge (hle x hxle).ge.le.ge)
  · rcases List.mem_cons.mp hxq with rfl | hxgs
    · exact le_refl x
    · have hq := (List.pairwise_append.mp hu).2.1
      exact (List.pairwise_cons.mp hq).1 x hxgs

/-- The multiset content is preserved by the pivot/target swap. -/
theorem swap_perm (le gs : List β) (p q : β) :
    (q :: (le ++ p :: gs)) ~ (p :: (le ++ q :: gs)) :=
  calc q :: (le ++ p :: gs)
      ~ q :: p :: (le ++ gs) := List.Perm.cons q List.perm_middle
    _ ~ p :: q :: (le ++ gs) := List.Perm.swap p q _
    _ ~ p :: (le ++ q :: gs) := List.Perm.cons p List.perm_middle.symm

/-- Minimality half of the successor property: any arrangement strictly
above `A ++ p :: (le ++ q :: gs).reverse` is at or above the successor
`A ++ q :: (le ++ p :: gs)`. -/
theorem succ_min {le gs : List β} {p q : β}
    (hle : ∀ x ∈ le, x ≤ p) (hpq : p < q)
    (hu : (le ++ q :: gs).Sorted (· ≤ ·)) :
    ∀ (A m : List β), m ~ (A ++ p :: (le ++ q :: gs).reverse) →
      List.Lex (· < ·) (A ++ p :: (le ++ q :: gs).reverse) m →
      (A ++ q :: (le ++ p :: gs)) = m
        ∨ List.Lex (· < ·) (A ++ q :: (le ++ p :: gs)) m := by
  intro A
  induction A with
  | cons a A ih =>
    intro m hm hlex
    cases m with
    | nil => exact absurd (List.Perm.eq_nil hm.symm) (by simp)
    | cons b m' =>
      cases hlex with
      | rel hab => exact Or.inr (List.Lex.rel hab)
      | cons h' =>
        rcases ih m' (List.Perm.cons_inv hm) h' with heq | hlt
        · exact Or.inl (by rw [List.cons_append, heq])
        · exact Or.inr (List.Lex.cons hlt)
  | nil =>
    intro m hm hlex
    simp only [List.nil_append] at hm hlex ⊢
    cases m with
    | nil => exact absurd (List.Perm.eq_nil hm.symm) (by simp)
    | cons b m' =>
      cases hlex with
      | cons h' =>
        have hD : ((le ++ q :: gs).reverse).Sorted (fun x y => y ≤ x) := by
          rw [List.Sorted]
          exact List.pairwise_reverse.mpr hu
        exact absurd h' (sorted_max_lex hD (List.Perm.cons_inv hm))
      | rel hpb =>
        have hbmem : b ∈ p :: (le ++ q :: gs).reverse :=
          hm.subset (List.mem_cons_self b m')
        have hbu : b ∈ le ++ q :: gs := by
          rcases List.mem_cons.mp hbmem with rfl | hD
          · exact absurd hpb (lt_irrefl b)
          · exact List.mem_reverse.mp hD
        have hqb : q ≤ b := swapTarget_min hle hu b hbu hpb
        rcases eq_or_lt_of_le hqb with heq | hlt
        · subst heq
          have hqE : (q :: (le ++ p :: gs)) ~ (q :: m') := by
            refine List.Perm.trans (swap_perm le gs p q) ?_
            refine List.Perm.trans (List.Perm.cons p ?_) hm.symm
            exact (List.reverse_perm _).symm
          have hE : (le ++ p :: gs) ~ m' := List.Perm.cons_inv hqE
          rcases lex_trichotomy (le ++ p :: gs) m' with hl | he | hg
          · exact Or.inr (List.Lex.cons hl)
          · exact Or.inl (by rw [he])
          · exact absurd hg (sorted_min_lex (newSuffix_sorted hle hpq hu) hE.symm)
        · exact Or.inr (List.Lex.rel hlt)

/-- Full specification of `nextPermutation` when it reports `true`:
the result is an arrangement of the same multiset, strictly above the
argument, and below-or-equal every arrangement strictly above the argument
(i.e. it is the immediate lexicographic successor). -/
theorem nextPermutation_true_spec {l l' : List β}
    (h : nextPermutation l = (l', true)) :
    l' ~ l ∧ List.Lex (· < ·) l l' ∧
      ∀ m, m ~ l → List.Lex (· < ·) l m →
        l' = m ∨ List.Lex (· < ·) l' m := by
  unfold nextPermutation at h
  cases hv : (splitNondec l.reverse).2 with
  | nil =>
    rw [hv] at h
    exact absurd h (by simp [nextPermAux])
  | cons p rest =>
    rw [hv] at h
    obtain ⟨u', c, hu1, hpc⟩ := splitNondec_snd_cases l.reverse p rest hv
    have hexists : ∃ x ∈ (splitNondec l.reverse).1, (decide (x ≤ p) : Bool) = false :=
      ⟨c, by rw [hu1]; simp, by simp [not_le.mpr hpc]⟩
    cases hd : (splitNondec l.reverse).1.dropWhile (fun x => decide (x ≤ p)) with
    | nil => exact absurd hd (dropWhile_ne_nil_of_exists hexists)
    | cons q gs =>
      simp only [nextPermAux, hd, Prod.mk.injEq, and_true] at h
      have hl' : l' = rest.reverse
          ++ q :: ((splitNondec l.reverse).1.takeWhile (fun x => decide (x ≤ p))
            ++ p :: gs) := h.symm
      have husplit : (splitNondec l.reverse).1.takeWhile (fun x => decide (x ≤ p))
          ++ q :: gs = (splitNondec l.reverse).1 := by
        have := List.takeWhile_append_dropWhile
          (p := fun x => decide (x ≤ p)) (l := (splitNondec l.reverse).1)
        rw [hd] at this
        exact this
      set le := (splitNondec l.reverse).1.takeWhile (fun x => decide (x ≤ p)) with hle_def
      have hle : ∀ x ∈ le, x ≤ p := by
        intro x hx
        have := List.mem_takeWhile_imp hx
        exact of_decide_eq_true this
      have hpq : p < q := by
        have := dropWhile_head_not _ _ _ hd
        exact lt_of_not_ge (fun hqp => by simp [hqp] at this)
      have hu : (le ++ q :: gs).Sorted (· ≤ ·) := by
        rw [husplit]
        exact splitNondec_fst_sorted l.reverse
      have hl : l = rest.reverse ++ p :: (le ++ q :: gs).reverse := by
        have happ : (le ++ q :: gs) ++ p :: rest = l.reverse := by
          rw [husplit, ← hv]
          exact splitNondec_append l.reverse
        have : l = ((le ++ q :: gs) ++ p :: rest).reverse := by
          rw [happ, List.reverse_reverse]
        rw [this]
        simp
      constructor
      · rw [hl', hl]
        refine List.Perm.append_left rest.reverse ?_
        refine List.Perm.trans (swap_perm le gs p q) ?_
        exact List.Perm.cons p (List.reverse_perm _).symm
      constructor
      · rw [hl', hl]
        exact List.Lex.append_left _ (List.Lex.rel hpq) rest.reverse
      · intro m hm hlex
        rw [hl] at hm hlex
        rw [hl']
        exact succ_min hle hpq hu rest.reverse m hm hlex

/-- Specification of `nextPermutation` when it reports `false`: the input
was weakly decreasing (the lexicographically maximal arrangement) and the
output is its reversal, the sorted (minimal) arrangement. -/
theorem nextPermutation_false_spec {l l'' : List β}
    (h : nextPermutation l = (l'', false)) :
    l'' = l.reverse ∧ l.Sorted (fun x y => y ≤ x) := by
  unfold nextPermutation at h
  cases hv : (splitNondec l.reverse).2 with
  | cons p rest =>
    rw [hv] at h
    cases hd : (splitNondec l.reverse).1.dropWhile (fun x => decide (x ≤ p)) <;>
      simp only [nextPermAux, hd, Prod.mk.injEq] at h <;> exact absurd h.2 (by simp)
  | nil =>
    rw [hv] at h
    have hu : (splitNondec l.reverse).1 = l.reverse := by
      have hap := splitNondec_append l.reverse
      rw [hv, List.append_nil] at hap
      exact hap
    simp only [nextPermAux, Prod.mk.injEq, and_true] at h
    constructor
    · rw [← h, hu]
    · have hs := splitNondec_fst_sorted l.reverse
      rw [hu] at hs
      rw [List.Sorted]
      have := List.pairwise_reverse.mp hs
      exact this

/-- The C++ enumeration pattern `do { visit(v); } while (std::next_permutation(v));`
expressed with explicit fuel (the C++ loop terminates because each `true`
step strictly increases the sequence lexicographically over a finite set of
arrangements; `permutationLoop_spec` shows any fuel at least the number of
remaining arrangements is enough). -/
def permutationLoop : Nat → List β → List (List β)
  | 0, _ => []
  | fuel + 1, l =>
    match nextPermutation l with
    | (l', true) => l :: permutationLoop fuel l'
    | (_, false) => [l]

/-- The arrangements of the multiset of `l` that are lexicographically at or
above `l` (proof scaffolding, not part of the translated code). -/
def arrangementsGE (l : List β) : Finset (List β) :=
  l.permutations.toFinset.filter (fun m => ¬ List.Lex (· < ·) m l)

theorem mem_arrangementsGE {l m : List β} :
    m ∈ arrangementsGE l ↔ (m ~ l ∧ ¬ List.Lex (· < ·) m l) := by
  unfold arrangementsGE
  rw [Finset.mem_filter, List.mem_toFinset, List.mem_permutations]

theorem self_mem_arrangementsGE (l : List β) : l ∈ arrangementsGE l :=
  mem_arrangementsGE.mpr ⟨List.Perm.refl l, lex_irrefl l⟩

theorem arrangementsGE_step {l l' : List β}
    (hperm : l' ~ l) (hlt : List.Lex (· < ·) l l')
    (hmin : ∀ m, m ~ l → List.Lex (· < ·) l m →
      l' = m ∨ List.Lex (· < ·) l' m) :
    arrangementsGE l' = (arrangementsGE l).erase l := by
  apply Finset.ext
  intro m
  rw [Finset.mem_erase, mem_arrangementsGE, mem_arrangementsGE]
  constructor
  · rintro ⟨hm, hnlex⟩
    have hml : m ~ l := hm.trans hperm
    refine ⟨?_, hml, ?_⟩
    · rintro rfl
      exact hnlex hlt
    · intro hlexml
      exact hnlex (lex_trans hlexml hlt)
  · rintro ⟨hne, hml, hnlex⟩
    have hlm : List.Lex (· < ·) l m := by
      rcases lex_trichotomy m l with h1 | h1 | h1
      · exact absurd h1 hnlex
      · exact absurd h1 hne
      · exact h1
    refine ⟨hml.trans hperm.symm, ?_⟩
    intro hmlex
    rcases hmin m hml hlm with heq | h2
    · rw [← heq] at hmlex
      exact lex_irrefl l' hmlex
    · exact lex_irrefl l' (lex_trans h2 hmlex)

theorem permutationLoop_spec : ∀ (fuel : Nat) (l : List β),
    (arrangementsGE l).card ≤ fuel →
    (∀ m, m ∈ permutationLoop fuel l ↔ (m ~ l ∧ ¬ List.Lex (· < ·) m l))
    ∧ (permutationLoop fuel l).Pairwise (List.Lex (· < ·)) := by
  intro fuel
  induction fuel with
  | zero =>
    intro l hcard
    have hpos : 0 < (arrangementsGE l).card :=
      Finset.card_pos.mpr ⟨l, self_mem_arrangementsGE l⟩
    omega
  | succ fuel ih =>
    intro l hcard
    cases hnp : nextPermutation l with
    | mk l' b =>
      cases b with
      | false =>
        obtain ⟨-, hmax⟩ := nextPermutation_false_spec hnp
        have hloop : permutationLoop (fuel + 1) l = [l] := by
          simp only [permutationLoop, hnp]
        rw [hloop]
        constructor
        · intro m
          simp only [List.mem_singleton]
          constructor
          · rintro rfl
            exact ⟨List.Perm.refl m, lex_irrefl m⟩
          · rintro ⟨hm, hnlex⟩
            rcases lex_trichotomy m l with h1 | h1 | h1
            · exact absurd h1 hnlex
            · exact h1
            · exact absurd h1 (sorted_max_lex hmax hm)
        · simp
      | true =>
        obtain ⟨hperm, hlt, hmin⟩ := nextPermutation_true_spec hnp
        have hloop : permutationLoop (fuel + 1) l = l :: permutationLoop fuel l' := by
          simp only [permutationLoop, hnp]
        have hGE : arrangementsGE l' = (arrangementsGE l).erase l :=
          arrangementsGE_step hperm hlt hmin
        have hcard' : (arrangementsGE l').card ≤ fuel := by
          rw [hGE, Finset.card_erase_of_mem (self_mem_arrangementsGE l)]
          omega
        obtain ⟨ihmem, ihpair⟩ := ih l' hcard'
        have hmem_l' : ∀ m, m ∈ permutationLoop fuel l' ↔
            ((m ~ l ∧ ¬ List.Lex (· < ·) m l) ∧ m ≠ l) := by
          intro m
          rw [ihmem m]
          have h1 : (m ~ l' ∧ ¬ List.Lex (· < ·) m l') ↔ m ∈ arrangementsGE l' :=
            mem_arrangementsGE.symm
          rw [h1, hGE, Finset.mem_erase, mem_arrangementsGE]
          tauto
        rw [hloop]
        constructor
        · intro m
          simp only [List.mem_cons]
          rw [hmem_l' m]
          constructor
          · rintro (rfl | ⟨hm, -⟩)
            · exact ⟨List.Perm.refl m, lex_irrefl m⟩
            · exact hm
          · intro hm
            by_cases hml : m = l
            · exact Or.inl hml
            · exact Or.inr ⟨hm, hml⟩
        · rw [List.pairwise_cons]
          refine ⟨?_, ihpair⟩
          intro m hm
          obtain ⟨⟨hmperm, hnlex⟩, hne⟩ := (hmem_l' m).mp hm
          rcases lex_trichotomy m l with h1 | h1 | h1
          · exact absurd h1 hnlex
          · exact absurd h1 hne
          · exact h1

theorem permutationLoop_head (fuel : Nat) (l : List β) (h : 1 ≤ fuel) :
    ∃ t, permutationLoop fuel l = l :: t := by
  cases fuel with
  | zero => omega
  | succ fuel =>
    cases hnp : nextPermutation l with
    | mk l' b =>
      cases b with
      | false => exact ⟨[], by simp only [permutationLoop, hnp]⟩
      | true => exact ⟨permutationLoop fuel l', by simp only [permutationLoop, hnp]⟩

/-- The full C++ pattern: `std::sort(v.begin(), v.end());
do { visit(v); } while (std::next_permutation(v.begin(), v.end()));`.
`l.length.factorial` fuel is enough to run the do-while loop to completion. -/
def sortedPermutations (l : List β) : List (List β) :=
  permutationLoop l.length.factorial (List.insertionSort (fun x y => x ≤ y) l)

theorem sortedPermutations_fuel (l : List β) :
    (arrangementsGE (List.insertionSort (fun x y => x ≤ y) l)).card
      ≤ l.length.factorial := by
  set s := List.insertionSort (fun x y => x ≤ y) l with hs
  have h1 : (arrangementsGE s).card ≤ s.permutations.toFinset.card :=
    Finset.card_filter_le _ _
  have h2 : s.permutations.toFinset.card ≤ s.permutations.length :=
    List.toFinset_card_le _
  have h3 : s.permutations.length = s.length.factorial := List.length_permutations s
  have h4 : s.length = l.length := (List.perm_insertionSort _ l).length_eq
  rw [h4] at h3
  omega

theorem sortedPermutations_mem (l : List β) :
    ∀ m, m ∈ sortedPermutations l ↔ m ~ l := by
  intro m
  unfold sortedPermutations
  obtain ⟨hmem, -⟩ := permutationLoop_spec l.length.factorial
    (List.insertionSort (fun x y => x ≤ y) l) (sortedPermutations_fuel l)
  rw [hmem m]
  have hsorted : (List.insertionSort (fun x y => x ≤ y) l).Sorted (· ≤ ·) :=
    List.sorted_insertionSort _ l
  have hperm : List.insertionSort (fun x y => x ≤ y) l ~ l :=
    List.perm_insertionSort _ l
  constructor
  · rintro ⟨hm, -⟩
    exact hm.trans hperm
  · intro hm
    have hm' : m ~ List.insertionSort (fun x y => x ≤ y) l := hm.trans hperm.symm
    exact ⟨hm', sorted_min_lex hsorted hm'⟩

theorem sortedPermutations_pairwise (l : List β) :
    (sortedPermutations l).Pairwise (List.Lex (· < ·)) := by
  unfold sortedPermutations
  exact (permutationLoop_spec l.length.factorial
    (List.insertionSort (fun x y => x ≤ y) l) (sortedPermutations_fuel l)).2

theorem sortedPermutations_nodup (l : List β) : (sortedPermutations l).Nodup := by
  refine List.Pairwise.imp ?_ (sortedPermutations_pairwise l)
  intro a b hab
  rintro rfl
  exact lex_irrefl a hab

theorem sortedPermutations_length (l : List β) :
    (sortedPermutations l).length = l.permutations.toFinset.card := by
  have hfin : (sortedPermutations l).toFinset = l.permutations.toFinset := by
    apply Finset.ext
    intro m
    rw [List.mem_toFinset, List.mem_toFinset, sortedPermutations_mem l m,
      List.mem_permutations]
  rw [← List.toFinset_card_of_nodup (sortedPermutations_nodup l), hfin]

theorem sortedPermutations_head (l : List β) :
    ∃ t, sortedPermutations l
      = List.insertionSort (fun x y => x ≤ y) l :: t := by
  unfold sortedPermutations
  apply permutationLoop_head
  exact Nat.one_le_iff_ne_zero.mpr (Nat.factorial_ne_zero l.length)

end NextPermutation

/-! ## Counting the distinct arrangements of a multiset

`#arrangements * ∏ (multiplicity!) = N!` — the multiplied form of the
claim's `N!/∏(multiplicities!)` count. -/

section ArrangementCount

variable {β : Type} [DecidableEq β]

theorem list_toFinset_sum_count (l : List β) :
    ∑ x in l.toFinset, l.count x = l.length := by
  have h := Multiset.toFinset_sum_count_eq (l : Multiset β)
  simpa using h

theorem arrangements_eq_biUnion {l : List β} (hl : l ≠ []) :
    l.permutations.toFinset
      = l.toFinset.biUnion
          (fun x => (l.erase x).permutations.toFinset.image (fun m => x :: m)) := by
  apply Finset.ext
  intro m
  simp only [Finset.mem_biUnion, Finset.mem_image, List.mem_toFinset,
    List.mem_permutations]
  constructor
  · intro hm
    cases m with
    | nil => exact absurd (List.Perm.eq_nil hm.symm) hl
    | cons b m' =>
      have hbe := List.cons_perm_iff_perm_erase.mp hm
      exact ⟨b, hbe.1, m', hbe.2, rfl⟩
  · rintro ⟨x, hx, m', hm', rfl⟩
    exact List.cons_perm_iff_perm_erase.mpr ⟨hx, hm'⟩

theorem card_arrangements_sum {l : List β} (hl : l ≠ []) :
    l.permutations.toFinset.card
      = ∑ x in l.toFinset, (l.erase x).permutations.toFinset.card := by
  rw [arrangements_eq_biUnion hl]
  rw [Finset.card_biUnion]
  · apply Finset.sum_congr rfl
    intro x _
    exact Finset.card_image_of_injective _ List.cons_injective
  · intro x _ y _ hxy
    rw [Finset.disjoint_left]
    rintro m hmx hmy
    obtain ⟨m₁, -, hm₁⟩ := Finset.mem_image.mp hmx
    obtain ⟨m₂, -, hm₂⟩ := Finset.mem_image.mp hmy
    apply hxy
    rw [← hm₂] at hm₁
    exact (List.cons_eq_cons.mp hm₁).1

theorem prod_factorial_erase {l : List β} {x : β} (hx : x ∈ l) :
    ∏ y in l.toFinset, (l.count y).factorial
      = l.count x
        * ∏ y in (l.erase x).toFinset, ((l.erase x).count y).factorial := by
  have hxT : x ∈ l.toFinset := List.mem_toFinset.mpr hx
  have hsub : (l.erase x).toFinset ⊆ l.toFinset := by
    intro y hy
    exact List.mem_toFinset.mpr (List.mem_of_mem_erase (List.mem_toFinset.mp hy))
  have hRHSprod : ∏ y in (l.erase x).toFinset, ((l.erase x).count y).factorial
      = ∏ y in l.toFinset, ((l.erase x).count y).factorial := by
    apply Finset.prod_subset hsub
    intro y _ hyE
    have hynot : y ∉ l.erase x := fun hc => hyE (List.mem_toFinset.mpr hc)
    rw [List.count_eq_zero.mpr hynot]
    rfl
  have hsplitL : ∏ y in l.toFinset, (l.count y).factorial
      = (l.count x).factorial
        * ∏ y in l.toFinset.erase x, (l.count y).factorial :=
    (Finset.mul_prod_erase l.toFinset _ hxT).symm
  have hsplitR : ∏ y in l.toFinset, ((l.erase x).count y).factorial
      = ((l.erase x).count x).factorial
        * ∏ y in l.toFinset.erase x, ((l.erase x).count y).factorial :=
    (Finset.mul_prod_erase l.toFinset _ hxT).symm
  have hcong : ∏ y in l.toFinset.erase x, (l.count y).factorial
      = ∏ y in l.toFinset.erase x, ((l.erase x).count y).factorial := by
    apply Finset.prod_congr rfl
    intro y hy
    have hyx : y ≠ x := (Finset.mem_erase.mp hy).1
    rw [List.count_erase_of_ne hyx]
  have hcx : 1 ≤ l.count x := List.count_pos_iff.mpr hx
  have hfact : (l.count x).factorial = l.count x * (l.count x - 1).factorial := by
    cases hc : l.count x with
    | zero => omega
    | succ c =>
      simp [Nat.factorial_succ]
  rw [hRHSprod, hsplitL, hsplitR, hcong, List.count_erase_self, hfact]
  ring

theorem card_arrangements_mul : ∀ (n : Nat) (l : List β), l.length = n →
    l.permutations.toFinset.card * ∏ x in l.toFinset, (l.count x).factorial
      = l.length.factorial := by
  intro n
  induction n using Nat.strong_induction_on with
  | _ n ih =>
    intro l hl
    cases hn : l with
    | nil => simp
    | cons a t =>
      have hlne : l ≠ [] := by rw [hn]; simp
      rw [← hn]
      rw [card_arrangements_sum hlne, Finset.sum_mul]
      have hstep : ∀ x ∈ l.toFinset,
          (l.erase x).permutations.toFinset.card
              * ∏ y in l.toFinset, (l.count y).factorial
            = (l.length - 1).factorial * l.count x := by
        intro x hx
        have hxl : x ∈ l := List.mem_toFinset.mp hx
        rw [prod_factorial_erase hxl]
        have hlen : (l.erase x).length = l.length - 1 := by
          rw [List.length_erase_of_mem hxl]
        have hihx : (l.erase x).permutations.toFinset.card
            * ∏ y in (l.erase x).toFinset, ((l.erase x).count y).factorial
            = (l.length - 1).factorial := by
          have hlt : (l.erase x).length < n := by
            rw [hlen]
            have : 1 ≤ l.length := by rw [hn]; simp
            omega
          rw [ih (l.erase x).length hlt (l.erase x) rfl, hlen]
        calc (l.erase x).permutations.toFinset.card
              * (l.count x * ∏ y in (l.erase x).toFinset,
                  ((l.erase x).count y).factorial)
            = ((l.erase x).permutations.toFinset.card
                * ∏ y in (l.erase x).toFinset,
                    ((l.erase x).count y).factorial) * l.count x := by ring
          _ = (l.length - 1).factorial * l.count x := by rw [hihx]
      rw [Finset.sum_congr rfl hstep, ← Finset.mul_sum, list_toFinset_sum_count]
      have hpos : 1 ≤ l.length := by rw [hn]; simp
      cases hL : l.length with
      | zero => omega
      | succ k =>
        simp [Nat.factorial_succ]
        ring

end ArrangementCount

/-! ## Step 2 of `calculateSolutions`: the grouping-order generator -/

/-- `order_of_operation_permutations` lambda: fill a `vector<int>` with
`0 .. k-1`, `std::sort` it, then collect every `std::next_permutation`
step in a do-while loop. -/
def order_of_operation_permutations (k : Nat) : List (List Int) :=
  sortedPermutations (List.map Int.ofNat (List.range k))

theorem order_of_operation_permutations_mem {k : Nat} {coo : List Int} :
    coo ∈ order_of_operation_permutations k
      ↔ coo ~ List.map Int.ofNat (List.range k) :=
  sortedPermutations_mem _ coo

theorem order_mem_bounds {k : Nat} {coo : List Int}
    (h : coo ∈ order_of_operation_permutations k) :
    coo.length = k ∧ ∀ i, i < k → 0 ≤ coo.getD i 0 ∧ coo.getD i 0 ≤ (k : Int) - 1 := by
  have hperm := order_of_operation_permutations_mem.mp h
  have hlen : coo.length = k := by
    rw [hperm.length_eq, List.length_map, List.length_range]
  refine ⟨hlen, ?_⟩
  intro i hi
  have hi' : i < coo.length := by omega
  have hmem : coo.getD i 0 ∈ coo := by
    rw [List.getD_eq_getElem coo 0 hi']
    exact List.getElem_mem hi'
  have hmem' : coo.getD i 0 ∈ List.map Int.ofNat (List.range k) :=
    hperm.subset hmem
  obtain ⟨j, hj, hje⟩ := List.mem_map.mp hmem'
  have hjk : j < k := List.mem_range.mp hj
  have hje' : (j : Int) = coo.getD i 0 := hje
  omega

/-! ## Steps 3/4 of `calculateSolutions`: the evaluator and collector -/

section Evaluator

variable {α : Type} [LinearOrder α] [Add α] [Sub α] [Mul α] [Div α] [BEq α]
  [OfNat α 24] [Inhabited α]

/-- The `applyOperation` lambda: `l += r` / `l -= r` / `l *= r` / `l /= r`
followed by `return l`. -/
def applyOperation (l r : α) : Operation → α
  | Operation.Addition => l + r
  | Operation.Subtraction => l - r
  | Operation.Multiplication => l * r
  | Operation.Division => l / r

/-- The index computation of the reduction loop body:
`auto order = current_order_of_operations[i] - deletionOffset;
 if (order < 0) order = 0;
 if (order >= input_copy.size() - 1) order = input_copy.size() - 1;`.
The arithmetic is `int`; the comparison against `input_copy.size() - 1`
promotes the (by then non-negative) `order` to `size_t`, which is faithful
to the model below whenever `1 ≤ len`, and the loop invariants keep
`2 ≤ len` at every use. -/
def clampedPos (nominal : Int) (len : Nat) : Nat :=
  let o1 : Int := if nominal < 0 then 0 else nominal
  (if o1 ≥ (len : Int) - 1 then (len : Int) - 1 else o1).toNat

/-- One iteration of the reduction do-while body: read the two adjacent
operands, combine them with `applyOperation`, write the result back at
`order` and erase position `order + 1`. Out-of-range reads (which the
invariant `clampedPos_add_two_le` below proves never occur for the index
sequences the program generates) are modelled by `getD`'s default. -/
def reductionStep (op : Operation) (nominal : Int) (buf : List α) : List α :=
  let pos := clampedPos nominal buf.length
  let result := applyOperation (buf.getD pos default) (buf.getD (pos + 1) default) op
  (buf.set pos result).eraseIdx (pos + 1)

/-- The working buffer after `i` iterations of the reduction loop, starting
from `input_copy = input` (the current permutation); `deletionOffset` equals
the iteration counter `i`. -/
def bufferAt (ops : List Operation) (coo : List Int) (perm : List α) : Nat → List α
  | 0 => perm
  | i + 1 => reductionStep (ops.getD i Operation.Addition)
      (coo.getD i 0 - (i : Int)) (bufferAt ops coo perm i)

/-- The whole reduction do-while loop
(`do { ... ++i; } while (i < operations.size());`): for the reachable case
`operations.size() ≥ 1` the loop body runs exactly `operations.size()`
times, with `i = 0, …, size-1`. -/
def evalTriple (ops : List Operation) (coo : List Int) (perm : List α) : List α :=
  bufferAt ops coo perm ops.length

/-- `calculateSolutions(const input_type targetNumber, input_collection_type &&input)`.
The `input.size() == 1` branch returns `{std::to_string(...)}` where the
bool-to-int promotion of a true comparison prints `"1"`. Otherwise the
triple-nested loop appends the literal `"blimblam"` for every triple whose
final buffer front compares `== 24` (the hardcoded constant in the source;
the `targetNumber` parameter is not consulted on this path). -/
def calculateSolutions (targetNumber : α) (input : List α) : List String :=
  if input.length = 1 then
    if input.getD 0 default == targetNumber then ["1"] else []
  else
    (sortedPermutations input).flatMap fun perm =>
      (operation_permutations (NUMBER_OF_OPERATIONS_IN_EXPRESSION input.length)).flatMap
        fun ops =>
          (order_of_operation_permutations
              (NUMBER_OF_OPERATIONS_IN_EXPRESSION input.length)).filterMap fun coo =>
            if (evalTriple ops coo perm).getD 0 default == (24 : α) then some "blimblam"
            else none

theorem clampedPos_eq_of_le {nominal : Int} {len : Nat} (h2 : 2 ≤ len)
    (hnom : nominal ≤ (len : Int) - 2) :
    (clampedPos nominal len : Int) = max nominal 0 := by
  unfold clampedPos
  by_cases h0 : nominal < 0
  · simp only [if_pos h0]
    rw [if_neg (by omega)]
    omega
  · simp only [if_neg h0]
    rw [if_neg (by omega)]
    omega

theorem clampedPos_add_two_le {nominal : Int} {len : Nat} (h2 : 2 ≤ len)
    (hnom : nominal ≤ (len : Int) - 2) :
    clampedPos nominal len + 2 ≤ len := by
  have h := clampedPos_eq_of_le h2 hnom
  omega

theorem reductionStep_length {op : Operation} {nominal : Int} {buf : List α}
    (h2 : 2 ≤ buf.length) (hnom : nominal ≤ (buf.length : Int) - 2) :
    (reductionStep op nominal buf).length = buf.length - 1 := by
  unfold reductionStep
  have hpos := clampedPos_add_two_le h2 hnom
  simp only [List.length_eraseIdx, List.length_set]
  rw [if_pos (by omega)]

/-- Invariant: after `i` reduction steps the working buffer holds exactly
`n - i` elements (for grouping orders whose entries lie in `[0, n-2]`). -/
theorem bufferAt_length {ops : List Operation} {coo : List Int} {perm : List α}
    {n : Nat} (hn : 2 ≤ n) (hperm : perm.length = n)
    (hcoo : ∀ i, i < n - 1 → 0 ≤ coo.getD i 0 ∧ coo.getD i 0 ≤ (n : Int) - 2) :
    ∀ i, i ≤ n - 1 → (bufferAt ops coo perm i).length = n - i := by
  intro i
  induction i with
  | zero => intro _; simpa using hperm
  | succ i ih =>
    intro hi
    have hlen : (bufferAt ops coo perm i).length = n - i := ih (by omega)
    have h2 : 2 ≤ (bufferAt ops coo perm i).length := by omega
    have hbound := hcoo i (by omega)
    have hnom : coo.getD i 0 - (i : Int) ≤ ((bufferAt ops coo perm i).length : Int) - 2 := by
      rw [hlen]
      push_cast
      omega
    show (reductionStep _ _ _).length = n - (i + 1)
    rw [reductionStep_length h2 hnom, hlen]
    omega

end Evaluator

/-! ## IEEE-754 special values, for the division-by-zero analysis

The evaluator above is generic in the scalar type. For claims whose content
is purely value-level and exact, `ℚ` models `double` faithfully. For the
division-by-zero behaviour we use `EDouble`: binary64 restricted to exact
arithmetic (every operation appearing in the runs below is exact, so no
rounding needs to be modelled), extended with the IEEE-754 special values
signed infinity and NaN and their propagation and comparison rules. -/

inductive EDouble : Type where
  | fin : ℚ → EDouble
  | inf : Bool → EDouble
  | nan : EDouble
deriving DecidableEq, Inhabited

namespace EDouble

/-- IEEE-754 addition (`inf true` is `+∞`). -/
def add : EDouble → EDouble → EDouble
  | fin a, fin b => fin (a + b)
  | fin _, inf s => inf s
  | inf s, fin _ => inf s
  | inf s, inf t => if s = t then inf s else nan
  | nan, _ => nan
  | _, nan => nan

/-- IEEE-754 subtraction. -/
def sub : EDouble → EDouble → EDouble
  | fin a, fin b => fin (a - b)
  | fin _, inf s => inf (!s)
  | inf s, fin _ => inf s
  | inf s, inf t => if s = t then nan else inf s
  | nan, _ => nan
  | _, nan => nan

/-- IEEE-754 multiplication (`0 × ∞ = NaN`). -/
def mul : EDouble → EDouble → EDouble
  | fin a, fin b => fin (a * b)
  | fin a, inf s => if a = 0 then nan else inf (s == decide (0 < a))
  | inf s, fin b => if b = 0 then nan else inf (s == decide (0 < b))
  | inf s, inf t => inf (s == t)
  | nan, _ => nan
  | _, nan => nan

/-- IEEE-754 division: `x / 0 = ±∞` for finite `x ≠ 0` (sign of `x`; the
model's zero is `+0`), `0 / 0 = NaN`, `∞ / ∞ = NaN`, `x / ∞ = 0`. -/
def div : EDouble → EDouble → EDouble
  | fin a, fin b =>
      if b = 0 then (if a = 0 then nan else inf (decide (0 < a))) else fin (a / b)
  | fin _, inf _ => fin 0
  | inf s, fin b => if b = 0 then inf s else inf (s == decide (0 < b))
  | inf _, inf _ => nan
  | nan, _ => nan
  | _, nan => nan

/-- IEEE-754 `operator==`: NaN is unequal to everything, itself included. -/
def beq : EDouble → EDouble → Bool
  | fin a, fin b => a == b
  | inf s, inf t => s == t
  | _, _ => false

instance : Add EDouble := ⟨add⟩

instance : Sub EDouble := ⟨sub⟩

instance : Mul EDouble := ⟨mul⟩

instance : Div EDouble := ⟨div⟩

instance : BEq EDouble := ⟨beq⟩

instance : OfNat EDouble 24 := ⟨fin 24⟩

/-- Injection used to transport a linear order onto `EDouble`; on finite
values it agrees with the IEEE-754 `operator<` used by `std::sort` and
`std::next_permutation` (NaN admits no total order in IEEE-754; the program
runs analysed below never sort non-finite values). -/
def rank : EDouble → Lex (Nat × ℚ)
  | nan => toLex (0, 0)
  | inf false => toLex (1, 0)
  | fin q => toLex (2, q)
  | inf true => toLex (3, 0)

theorem rank_injective : Function.Injective rank := by
  intro x y h
  cases x with
  | fin a =>
    cases y with
    | fin b =>
      rw [((Prod.mk.injEq _ _ _ _).mp (toLex_inj.mp h)).2]
    | inf t =>
      cases t <;>
        exact absurd ((Prod.mk.injEq _ _ _ _).mp (toLex_inj.mp h)).1 (by norm_num)
    | nan =>
      exact absurd ((Prod.mk.injEq _ _ _ _).mp (toLex_inj.mp h)).1 (by norm_num)
  | inf s =>
    cases y with
    | fin b =>
      cases s <;>
        exact absurd ((Prod.mk.injEq _ _ _ _).mp (toLex_inj.mp h)).1 (by norm_num)
    | inf t =>
      cases s <;> cases t <;>
        first
        | rfl
        | exact absurd ((Prod.mk.injEq _ _ _ _).mp (toLex_inj.mp h)).1 (by norm_num)
    | nan =>
      cases s <;>
        exact absurd ((Prod.mk.injEq _ _ _ _).mp (toLex_inj.mp h)).1 (by norm_num)
  | nan =>
    cases y with
    | fin b =>
      exact absurd ((Prod.mk.injEq _ _ _ _).mp (toLex_inj.mp h)).1 (by norm_num)
    | inf t =>
      cases t <;>
        exact absurd ((Prod.mk.injEq _ _ _ _).mp (toLex_inj.mp h)).1 (by norm_num)
    | nan => rfl

instance : LinearOrder EDouble := LinearOrder.lift' rank rank_injective

end EDouble

/-! ## Supporting lemmas for the claim theorems -/

theorem NUMBER_OF_OPERATIONS_eq {n : Nat} (h1 : 1 ≤ n) (h64 : n ≤ 2 ^ 64) :
    NUMBER_OF_OPERATIONS_IN_EXPRESSION n = n - 1 := by
  unfold NUMBER_OF_OPERATIONS_IN_EXPRESSION
  have hp : (2 : Nat) ^ 64 = 18446744073709551616 := by norm_num
  rw [hp] at h64 ⊢
  omega

theorem operation_permutations_mem_length {k : Nat} {ops : List Operation}
    (h : ops ∈ operation_permutations k) : ops.length = k := by
  rw [operation_permutations_eq] at h
  obtain ⟨i, -, rfl⟩ := List.mem_map.mp h
  exact digitsList_length i k

/-- The `targetNumber` parameter is read only in the `input.size() == 1`
branch; the main search path compares against the hardcoded `24`. -/
theorem calculateSolutions_target_irrelevant {α : Type} [LinearOrder α]
    [Add α] [Sub α] [Mul α] [Div α] [BEq α] [OfNat α 24] [Inhabited α]
    (t₁ t₂ : α) (input : List α) (h : input.length ≠ 1) :
    calculateSolutions t₁ input = calculateSolutions t₂ input := by
  unfold calculateSolutions
  rw [if_neg h, if_neg h]

theorem length_sortedPermutations_of_nodup {β : Type} [LinearOrder β]
    {l : List β} (h : l.Nodup) :
    (sortedPermutations l).length = l.length.factorial := by
  have hmul := card_arrangements_mul l.length l rfl
  have hprod : ∏ x in l.toFinset, (l.count x).factorial = 1 := by
    apply Finset.prod_eq_one
    intro x hx
    rw [List.count_eq_one_of_mem h (List.mem_toFinset.mp hx)]
    rfl
  rw [hprod, Nat.mul_one] at hmul
  rw [sortedPermutations_length, hmul]

theorem range_intCast_nodup (k : Nat) : (List.map Int.ofNat (List.range k)).Nodup :=
  (List.nodup_range k).map (fun _ _ h => Int.ofNat.inj h)

theorem range_intCast_sorted (k : Nat) :
    (List.map Int.ofNat (List.range k)).Sorted (fun x y => x ≤ y) := by
  rw [List.Sorted, List.pairwise_map]
  apply List.Pairwise.imp ?_ (List.pairwise_lt_range k)
  intro a b hab
  exact Int.ofNat_le.mpr (le_of_lt hab)

theorem order_mem_entry_bounds {n : Nat} {coo : List Int}
    (hcoo : coo ∈ order_of_operation_permutations (n - 1)) :
    ∀ i, i < n - 1 → 0 ≤ coo.getD i 0 ∧ coo.getD i 0 ≤ (n : Int) - 2 := by
  obtain ⟨-, hcb⟩ := order_mem_bounds hcoo
  intro i hi
  obtain ⟨h0, h1⟩ := hcb i hi
  refine ⟨h0, ?_⟩
  omega

/-! ## Claim theorems -/

/-- Claim C1 (code bug): the spec says a solution record is appended iff the
single value left after the reductions equals the `targetNumber` parameter
exactly, so input `{1, 1}` with target `2` must yield exactly one solution
(from `1+1 = 2`). The code instead compares the final buffer value against
the hardcoded literal `24` and never consults `targetNumber` on this path:
on the failing input `(target 2, input {1, 1})` it returns no solutions,
even though the addition triple evaluates exactly to the target (second
conjunct). All arithmetic on this input is exact in binary64, so the `ℚ`
model is value-faithful. -/
theorem C1_final_check_uses_hardcoded_24_not_target :
    calculateSolutions (2 : ℚ) [1, 1] = []
    ∧ evalTriple [Operation.Addition] [0] [(1 : ℚ), 1] = [2] := by
  constructor
  · simp only [calculateSolutions]
    rw [operation_permutations_eq]
    decide
  · decide

/-- Claim C2 (code bug): the spec's solution record is a formatted trace
holding the original permutation and each reduction step; the code instead
pushes the unrelated constant string `"blimblam"` for every match (the
formatted trace is only written to `std::cout`). For target 24 and input
`{4, 6}` the two matching triples `4×6` and `6×4` each contribute the
record `"blimblam"`. -/
theorem C2_solution_records_are_constant_blimblam :
    calculateSolutions (24 : ℚ) [4, 6] = ["blimblam", "blimblam"] := by
  simp only [calculateSolutions]
  rw [operation_permutations_eq]
  decide

/-- Claim C3 (code bug): the spec says the empty input yields zero solutions,
completing normally. In the code `NUMBER_OF_OPERATIONS_IN_EXPRESSION` is
`input.size() - 1` in `size_t` arithmetic, which for `N = 0` wraps to
`2^64 - 1` instead of producing a length the trivial-case guard could
handle; the function then attempts to materialize operator assignments and
grouping orders of that length (the grouping-order lambda's
`reserve(2^64 - 1)` exceeds `vector::max_size()` and throws
`std::length_error`, after an undefined float-to-`size_t` cast of
`pow(4, 2^64 - 1)`), so no empty list is returned. -/
theorem C3_empty_input_operation_count_underflows :
    NUMBER_OF_OPERATIONS_IN_EXPRESSION 0 = 2 ^ 64 - 1
    ∧ NUMBER_OF_OPERATIONS_IN_EXPRESSION 0 ≠ 0 := by
  constructor <;> decide

/-- Claim C4 (confirmed): at every reduction step `i` of the evaluator, the
position actually used to index the working buffer — the nominal
`grouping_order[i] - deletionOffset` after the two clamping adjustments —
satisfies `pos + 2 ≤ current buffer length`, i.e. lies in
`[0, current_buffer_length − 2]`, so both `buffer[pos]` and
`buffer[pos + 1]` are in-bounds at every step. -/
theorem C4_clamped_position_in_bounds {n : Nat} {perm : List ℚ}
    {ops : List Operation} {coo : List Int}
    (hn : 2 ≤ n) (hn64 : n ≤ 2 ^ 64) (hperm : perm.length = n)
    (hops : ops ∈ operation_permutations (NUMBER_OF_OPERATIONS_IN_EXPRESSION n))
    (hcoo : coo ∈ order_of_operation_permutations (NUMBER_OF_OPERATIONS_IN_EXPRESSION n)) :
    ∀ i, i < n - 1 →
      clampedPos (coo.getD i 0 - (i : Int)) (bufferAt ops coo perm i).length + 2
        ≤ (bufferAt ops coo perm i).length := by
  have hk := NUMBER_OF_OPERATIONS_eq (by omega) hn64
  rw [hk] at hcoo
  have hcoo' := order_mem_entry_bounds (n := n) hcoo
  intro i hi
  have hlen : (bufferAt ops coo perm i).length = n - i :=
    bufferAt_length hn hperm hcoo' i (by omega)
  have h2 : 2 ≤ (bufferAt ops coo perm i).length := by omega
  apply clampedPos_add_two_le h2
  rw [hlen]
  obtain ⟨h0, h1⟩ := hcoo' i hi
  omega

/-- Witness for C4: n = 2, permutation `[1, 1]`, assignment `[+]`, grouping
order `[0]`, step 0. -/
theorem C4_witness :
    clampedPos (([0] : List Int).getD 0 0 - (0 : Int))
        (bufferAt [Operation.Addition] [0] [(1 : ℚ), 1] 0).length + 2
      ≤ (bufferAt [Operation.Addition] [0] [(1 : ℚ), 1] 0).length :=
  C4_clamped_position_in_bounds (n := 2) (by norm_num) (by norm_num) (by norm_num)
    (by rw [operation_permutations_eq]; decide) (by decide) 0 (by norm_num)

/-- Claim C5 (confirmed): the outer loop sorts the input ascending once and
advances with next-permutation semantics until the sorted order recurs,
visiting every distinct ordering of the input multiset exactly once; the
number of visited orderings is `N!/∏(multiplicities!)`, stated here in
multiplied form. -/
theorem C5_permutation_driver_enumerates_multiset {input : List ℚ}
    (hne : input ≠ []) :
    (∀ m, m ∈ sortedPermutations input ↔ m ~ input)
    ∧ (sortedPermutations input).Nodup
    ∧ (sortedPermutations input).length
        * ∏ x in input.toFinset, (input.count x).factorial
      = input.length.factorial := by
  refine ⟨sortedPermutations_mem input, sortedPermutations_nodup input, ?_⟩
  rw [sortedPermutations_length]
  exact card_arrangements_mul input.length input rfl

/-- Witness for C5 at the duplicate-element input `[1, 1]` (one distinct
ordering: 2! = 1 × 2!). -/
theorem C5_witness :
    (sortedPermutations [(1 : ℚ), 1]).length
        * ∏ x in ([(1 : ℚ), 1]).toFinset, (([(1 : ℚ), 1]).count x).factorial
      = ([(1 : ℚ), 1]).length.factorial :=
  (C5_permutation_driver_enumerates_multiset (by simp)).2.2

/-- Claim C6 (confirmed): for input length `N ≥ 2` and `k = N-1` the
operator-assignment generator produces exactly `4^k` assignments, each of
length `k`, all distinct, jointly covering every sequence over the operator
alphabet, in base-4 numeric order: assignment `i` is the base-4 digit list
of `i`, least-significant digit first, each digit mapped to the operator of
that ordinal. -/
theorem C6_operator_assignment_generator {n : Nat} (hn : 2 ≤ n)
    (hn64 : n ≤ 2 ^ 64) :
    (operation_permutations (NUMBER_OF_OPERATIONS_IN_EXPRESSION n)).length = 4 ^ (n - 1)
    ∧ (∀ ops ∈ operation_permutations (NUMBER_OF_OPERATIONS_IN_EXPRESSION n),
        ops.length = n - 1)
    ∧ (operation_permutations (NUMBER_OF_OPERATIONS_IN_EXPRESSION n)).Nodup
    ∧ (∀ ops : List Operation, ops.length = n - 1 →
        ops ∈ operation_permutations (NUMBER_OF_OPERATIONS_IN_EXPRESSION n))
    ∧ ∀ i, i < 4 ^ (n - 1) →
        (operation_permutations (NUMBER_OF_OPERATIONS_IN_EXPRESSION n)).getD i []
          = (List.range (n - 1)).map fun j => opOfDigit (i / 4 ^ j % 4) := by
  have hk := NUMBER_OF_OPERATIONS_eq (by omega) hn64
  rw [hk]
  refine ⟨?_, ?_, ?_, ?_, ?_⟩
  · rw [operation_permutations_eq]
    simp
  · intro ops hops
    exact operation_permutations_mem_length hops
  · rw [operation_permutations_eq]
    refine List.Nodup.map_on ?_ (List.nodup_range _)
    intro x hx y hy hxy
    exact digitsList_inj (List.mem_range.mp hx) (List.mem_range.mp hy) hxy
  · intro ops hlen
    rw [operation_permutations_eq]
    refine List.mem_map.mpr ⟨encodeOps ops, List.mem_range.mpr ?_, ?_⟩
    · rw [← hlen]
      exact encodeOps_lt ops
    · rw [← hlen]
      exact digitsList_encodeOps ops
  · intro i hi
    rw [operation_permutations_eq]
    have hi' : i < ((List.range (4 ^ (n - 1))).map fun m => digitsList m (n - 1)).length := by
      simpa using hi
    rw [List.getD_eq_getElem _ _ hi']
    simp [digitsList]

/-- Witness for C6 at N = 3 (k = 2, 16 assignments). -/
theorem C6_witness :
    (operation_permutations (NUMBER_OF_OPERATIONS_IN_EXPRESSION 3)).length = 4 ^ (3 - 1) :=
  (C6_operator_assignment_generator (by norm_num) (by norm_num)).1

/-- Claim C7 (confirmed): for input length `N ≥ 2` and `k = N-1` the
grouping-order generator produces exactly `k!` sequences, each a
permutation of `{0, …, k-1}` (no repeats, full coverage), all distinct, in
lexicographic order starting from the sorted sequence; for `k = 1` it
produces exactly `[[0]]`. -/
theorem C7_grouping_order_generator {n : Nat} (hn : 2 ≤ n)
    (hn64 : n ≤ 2 ^ 64) :
    (order_of_operation_permutations (NUMBER_OF_OPERATIONS_IN_EXPRESSION n)).length
        = (n - 1).factorial
    ∧ (∀ coo ∈ order_of_operation_permutations (NUMBER_OF_OPERATIONS_IN_EXPRESSION n),
        coo ~ List.map Int.ofNat (List.range (n - 1)))
    ∧ (order_of_operation_permutations (NUMBER_OF_OPERATIONS_IN_EXPRESSION n)).Nodup
    ∧ (order_of_operation_permutations (NUMBER_OF_OPERATIONS_IN_EXPRESSION n)).Pairwise
        (List.Lex (· < ·))
    ∧ (order_of_operation_permutations (NUMBER_OF_OPERATIONS_IN_EXPRESSION n)).head?
        = some (List.map Int.ofNat (List.range (n - 1)))
    ∧ order_of_operation_permutations 1 = [[(0 : Int)]] := by
  have hk := NUMBER_OF_OPERATIONS_eq (by omega) hn64
  rw [hk]
  refine ⟨?_, ?_, ?_, ?_, ?_, ?_⟩
  · show (sortedPermutations _).length = _
    rw [length_sortedPermutations_of_nodup (range_intCast_nodup (n - 1))]
    simp
  · intro coo hcoo
    exact order_of_operation_permutations_mem.mp hcoo
  · exact sortedPermutations_nodup _
  · exact sortedPermutations_pairwise _
  · show (sortedPermutations _).head? = _
    obtain ⟨t, ht⟩ := sortedPermutations_head (List.map Int.ofNat (List.range (n - 1)))
    rw [ht, List.Sorted.insertionSort_eq (range_intCast_sorted (n - 1))]
    rfl
  · decide

/-- Witness for C7 at N = 3 (k = 2, two grouping orders). -/
theorem C7_witness :
    (order_of_operation_permutations (NUMBER_OF_OPERATIONS_IN_EXPRESSION 3)).length
      = (3 - 1).factorial :=
  (C7_grouping_order_generator (by norm_num) (by norm_num)).1

/-- Claim C8 (confirmed): division by zero never aborts the computation —
`applyOperation` with Division and a zero right operand yields an IEEE-754
infinity (or NaN for `0/0`), which is an ordinary value of the evaluator;
for input `{0, 5}` and any finite target the `5÷0` triple evaluates to
`+∞`, fails the final equality check, and the whole run produces no
solutions. -/
theorem C8_division_by_zero_propagates (q : ℚ) :
    calculateSolutions (EDouble.fin q) [EDouble.fin 0, EDouble.fin 5] = []
    ∧ evalTriple [Operation.Division] [0] [EDouble.fin 5, EDouble.fin 0]
        = [EDouble.inf true]
    ∧ ∀ a : ℚ, applyOperation (EDouble.fin a) (EDouble.fin 0) Operation.Division
        = if a = 0 then EDouble.nan else EDouble.inf (decide (0 < a)) := by
  refine ⟨?_, by decide, ?_⟩
  · rw [calculateSolutions_target_irrelevant (EDouble.fin q) (EDouble.fin 0) _ (by norm_num)]
    simp only [calculateSolutions]
    rw [operation_permutations_eq]
    decide
  · intro a
    show EDouble.div (EDouble.fin a) (EDouble.fin 0) = _
    simp only [EDouble.div, if_true]

/-- Witness for C8 at the finite target 7. -/
theorem C8_witness :
    calculateSolutions (EDouble.fin 7) [EDouble.fin 0, EDouble.fin 5] = [] :=
  (C8_division_by_zero_propagates 7).1

/-- Claim C9 (confirmed): for every triple the working buffer starts as a
fresh copy of the current permutation (`N` elements) and shrinks by exactly
one element per reduction step — after `step` reductions it holds
`N - step` elements — and exactly one element remains after the final
(`N-1`-th) step. -/
theorem C9_working_buffer_invariant {n : Nat} {perm : List ℚ}
    {ops : List Operation} {coo : List Int}
    (hn : 2 ≤ n) (hn64 : n ≤ 2 ^ 64) (hperm : perm.length = n)
    (hops : ops ∈ operation_permutations (NUMBER_OF_OPERATIONS_IN_EXPRESSION n))
    (hcoo : coo ∈ order_of_operation_permutations (NUMBER_OF_OPERATIONS_IN_EXPRESSION n)) :
    bufferAt ops coo perm 0 = perm
    ∧ (∀ i, i ≤ n - 1 → (bufferAt ops coo perm i).length = n - i)
    ∧ (evalTriple ops coo perm).length = 1 := by
  have hk := NUMBER_OF_OPERATIONS_eq (by omega) hn64
  rw [hk] at hcoo hops
  have hcoo' := order_mem_entry_bounds (n := n) hcoo
  refine ⟨rfl, bufferAt_length hn hperm hcoo', ?_⟩
  have hlen : ops.length = n - 1 := operation_permutations_mem_length hops
  unfold evalTriple
  rw [hlen, bufferAt_length hn hperm hcoo' (n - 1) (le_refl _)]
  omega

/-- Witness for C9: n = 2, permutation `[1, 1]`, assignment `[+]`, grouping
order `[0]`. -/
theorem C9_witness :
    (evalTriple [Operation.Addition] [0] [(1 : ℚ), 1]).length = 1 :=
  (C9_working_buffer_invariant (n := 2) (by norm_num) (by norm_num) (by norm_num)
    (by rw [operation_permutations_eq]; decide) (by decide)).2.2

/-- Claim C10 (confirmed): for every input of length ≥ 2 and any two
targets, `calculateSolutions` returns the same solution list — the
`targetNumber` parameter is only read in the single-element branch, while
the search path compares against the hardcoded `24`. -/
theorem C10_target_independent {α : Type} [LinearOrder α] [Add α] [Sub α]
    [Mul α] [Div α] [BEq α] [OfNat α 24] [Inhabited α]
    (t₁ t₂ : α) (input : List α) (h : 2 ≤ input.length) :
    calculateSolutions t₁ input = calculateSolutions t₂ input :=
  calculateSolutions_target_irrelevant t₁ t₂ input (by omega)

/-- Witness for C10: targets 5 and 7 on input `[1, 2]`. -/
theorem C10_witness :
    calculateSolutions (5 : ℚ) [1, 2] = calculateSolutions (7 : ℚ) [1, 2] :=
  C10_target_independent 5 7 [1, 2] (by norm_num)

end Game24
